import Mathlib

/-!
Verification of the clip-extraction pipeline of `src/bot.py`.

The Python functions are shallowly embedded as Lean definitions:

* `analyze_scenes` (segment selector) is a pure function over times; the
  Python float arithmetic (`duration * 0.1`, `usable / (n + 1)`, ...) is
  modelled exactly over `ℚ`.
* `generate_ass_subtitles` (caption cue builder) is modelled on lists of
  characters, with Python's `str.strip`, `str.upper` and `str.split`
  embedded as executable functions.
* `ProxyManager` is a record with explicit state passing.
* the per-clip renderer `create_short_with_subtitles` is modelled as a
  function from an oracle (transcription result, external encoder success)
  to its outcome, tracking which temporary artifacts remain on disk.
-/

namespace Clipcutbot

/-! ## Segment selector (`analyze_scenes`, src/bot.py lines 99-131) -/

/-- Safe-interior start `duration * 0.1` (src/bot.py line 107). -/
def safe_start (duration : ℚ) : ℚ := duration * (1/10)

/-- Safe-interior end `duration * 0.9` (src/bot.py line 108). -/
def safe_end (duration : ℚ) : ℚ := duration * (9/10)

/-- Usable interior length `safe_end - safe_start` (src/bot.py line 109). -/
def usable_duration (duration : ℚ) : ℚ := safe_end duration - safe_start duration

/-- Fixed per-short segment length, 45 seconds (src/bot.py line 112). -/
def segment_length : ℚ := 45

/-- Anchor spacing `usable_duration / (num_clips + 1)` (src/bot.py lines 117, 124). -/
def gap (duration : ℚ) (num_clips : ℕ) : ℚ :=
  usable_duration duration / ((num_clips : ℚ) + 1)

/-- Embedding of `analyze_scenes` (src/bot.py lines 99-131): maps a source
duration and requested clip count to the list of `(start, end)` windows. -/
def analyze_scenes (duration : ℚ) (num_clips : ℕ) : List (ℚ × ℚ) :=
  if duration < 60 then
    [(0, min duration 50)]
  else if usable_duration duration < segment_length * (num_clips : ℚ) then
    (List.range num_clips).map (fun i : ℕ =>
      let start := safe_start duration + gap duration num_clips * ((i : ℚ) + 1)
      (start, min (start + segment_length) (safe_end duration)))
  else
    (List.range num_clips).map (fun i : ℕ =>
      let start := max (safe_start duration)
        (safe_start duration + gap duration num_clips * ((i : ℚ) + 1) - segment_length / 2)
      (start, min (start + segment_length) (safe_end duration)))

/-- C1: for every duration at least 60 and every requested clip count at least 1,
`analyze_scenes` returns exactly `num_clips` windows, each contained in the safe
interior from `0.1 * duration` to `0.9 * duration`, with start not after end and
length at most 45 seconds. -/
theorem analyze_scenes_count_and_safe (d : ℚ) (n : ℕ) (hd : 60 ≤ d) (hn : 1 ≤ n) :
    (analyze_scenes d n).length = n ∧
      ∀ w ∈ analyze_scenes d n,
        safe_start d ≤ w.1 ∧ w.1 ≤ w.2 ∧ w.2 ≤ safe_end d ∧ w.2 - w.1 ≤ 45 := by
  have hnotlt : ¬ d < 60 := not_lt.2 hd
  have hu : (0:ℚ) ≤ usable_duration d := by
    unfold usable_duration safe_end safe_start; nlinarith
  have hse : safe_start d ≤ safe_end d := by
    unfold safe_end safe_start; nlinarith
  have hg : (0:ℚ) ≤ gap d n := by
    unfold gap; positivity
  have husable : usable_duration d = safe_end d - safe_start d := rfl
  have hgn : ∀ i : ℕ, i < n → gap d n * ((i:ℚ)+1) ≤ usable_duration d := by
    intro i hi
    have h1 : ((i:ℚ)+1) ≤ ((n:ℚ)+1) := by
      have h0 : (i:ℚ) ≤ (n:ℚ) := by exact_mod_cast Nat.le_of_lt hi
      linarith
    have h2 : gap d n * ((n:ℚ)+1) = usable_duration d := by
      unfold gap
      field_simp
    calc gap d n * ((i:ℚ)+1) ≤ gap d n * ((n:ℚ)+1) := by
          exact mul_le_mul_of_nonneg_left h1 hg
      _ = usable_duration d := h2
  unfold analyze_scenes
  rw [if_neg hnotlt]
  rcases lt_or_ge (usable_duration d) (segment_length * (n:ℚ)) with hcase | hcase
  · rw [if_pos hcase]
    refine ⟨by simp, ?_⟩
    intro w hw
    simp only [List.mem_map, List.mem_range] at hw
    obtain ⟨i, hi, rfl⟩ := hw
    have hgi := hgn i hi
    have hg0 : (0:ℚ) ≤ gap d n * ((i:ℚ)+1) := by positivity
    dsimp only
    refine ⟨by linarith, le_min (by norm_num [segment_length]) (by linarith),
      min_le_right _ _, ?_⟩
    have h45 := min_le_left (safe_start d + gap d n * ((i:ℚ)+1) + segment_length) (safe_end d)
    simp only [segment_length] at h45 ⊢
    linarith
  · rw [if_neg (not_lt.2 hcase)]
    refine ⟨by simp, ?_⟩
    intro w hw
    simp only [List.mem_map, List.mem_range] at hw
    obtain ⟨i, hi, rfl⟩ := hw
    have hgi := hgn i hi
    dsimp only
    refine ⟨le_max_left _ _, ?_, min_le_right _ _, ?_⟩
    · refine le_min (by norm_num [segment_length]) ?_
      refine max_le hse ?_
      norm_num [segment_length]
      linarith
    · have h45 := min_le_left (max (safe_start d)
        (safe_start d + gap d n * ((i:ℚ)+1) - segment_length / 2) + segment_length) (safe_end d)
      simp only [segment_length] at h45 ⊢
      linarith

/-- Witness for C1: duration 600 and clip count 3 satisfy the hypotheses, and the
selector then returns exactly 3 windows. -/
theorem analyze_scenes_count_and_safe_witness : (analyze_scenes 600 3).length = 3 :=
  (analyze_scenes_count_and_safe 600 3 (by norm_num) (by norm_num)).1

/-- C2 counterexample: for duration 600 and 3 clips the selector does not return
the windows `[60,105], [180,225], [300,345]` stated by the claim. -/
theorem analyze_scenes_example_counterexample :
    analyze_scenes 600 3 ≠ [(60, 105), (180, 225), (300, 345)] := by
  norm_num [analyze_scenes, safe_start, safe_end, usable_duration, gap, segment_length,
    List.range_succ]

/-- C2 amended: for duration 600, 3 clips and clip length 45 the selector computes
safe start 60, safe end 540, usable 480 and gap 120, and the centering formula
`start = max(safeStart, anchor - clipLength/2)`, `end = min(start + clipLength, safeEnd)`
with anchors at `safeStart + gap*(i+1)` yields the windows
`[157.5, 202.5], [277.5, 322.5], [397.5, 442.5]`. -/
theorem analyze_scenes_example_amended :
    safe_start 600 = 60 ∧ safe_end 600 = 540 ∧ usable_duration 600 = 480 ∧
      gap 600 3 = 120 ∧
      analyze_scenes 600 3 = [(315/2, 405/2), (555/2, 645/2), (795/2, 885/2)] := by
  refine ⟨by norm_num [safe_start], by norm_num [safe_end],
    by norm_num [usable_duration, safe_start, safe_end],
    by norm_num [gap, usable_duration, safe_start, safe_end], ?_⟩
  norm_num [analyze_scenes, safe_start, safe_end, usable_duration, gap, segment_length,
    List.range_succ]

/-- C3: for every duration below 60 the selector returns the single window
`[0, min(duration, 50)]`, whatever clip count is requested. -/
theorem analyze_scenes_short_source (d : ℚ) (n : ℕ) (hd : d < 60) :
    analyze_scenes d n = [(0, min d 50)] := by
  unfold analyze_scenes
  rw [if_pos hd]

/-- Witness for C3: duration 0 satisfies the hypothesis and yields the single
degenerate window `[0, 0]`. -/
theorem analyze_scenes_short_source_witness : analyze_scenes 0 3 = [(0, 0)] := by
  have h := analyze_scenes_short_source 0 3 (by norm_num)
  simpa using h

/-- C4 counterexample: with clip count 0 and duration 30 the selector does not
return an empty sequence, refuting the claim for durations below 60. -/
theorem analyze_scenes_zero_clips_counterexample : analyze_scenes 30 0 ≠ [] := by
  norm_num [analyze_scenes]

/-- C4 amended: with clip count 0 the selector returns an empty sequence for every
duration of at least 60; for durations below 60 it instead returns the single
short-source window `[0, min(duration, 50)]` regardless of the clip count. -/
theorem analyze_scenes_zero_clips_amended (d : ℚ) :
    (60 ≤ d → analyze_scenes d 0 = []) ∧
      (d < 60 → analyze_scenes d 0 = [(0, min d 50)]) := by
  constructor
  · intro hd
    unfold analyze_scenes
    rw [if_neg (not_lt.2 hd)]
    split <;> simp
  · intro hd
    unfold analyze_scenes
    rw [if_pos hd]

/-- Witness for C4 amended: at duration 600 the hypothesis holds and the selector
returns the empty sequence for clip count 0. -/
theorem analyze_scenes_zero_clips_amended_witness : analyze_scenes 600 0 = [] :=
  (analyze_scenes_zero_clips_amended 600).1 (by norm_num)

/-! ## Caption cue builder (`generate_ass_subtitles`, src/bot.py lines 145-198)

Strings are modelled as `List Char`. Python's `str.strip()`, `str.upper()` and
`str.split()` are embedded as `pyStrip`, `pyUpper` and `splitWs`; `str.upper`
is modelled per character by the ASCII case map `Char.toUpper`, which agrees
with Python on the ASCII range. -/

/-- Whitespace test matching Python's `str.split` / `str.strip` default
separators (ASCII space, tab, newline, carriage return, vertical tab,
form feed). -/
def pyIsSpace (c : Char) : Bool :=
  c = ' ' || c = '\t' || c = '\n' || c = '\r' || c = '\x0b' || c = '\x0c'

/-- Embedding of Python `str.strip()`: drop whitespace from both ends. -/
def pyStrip (s : List Char) : List Char :=
  ((s.dropWhile pyIsSpace).reverse.dropWhile pyIsSpace).reverse

/-- Embedding of Python `str.upper()` on the ASCII range: upper-case each
character. -/
def pyUpper (s : List Char) : List Char := s.map Char.toUpper

/-- Helper for `splitWs`: accumulates the current word (reversed) while
scanning. -/
def splitWsAux : List Char → List Char → List (List Char)
  | [], acc => if acc = [] then [] else [acc.reverse]
  | c :: rest, acc =>
    if pyIsSpace c then
      if acc = [] then splitWsAux rest []
      else acc.reverse :: splitWsAux rest []
    else splitWsAux rest (c :: acc)

/-- Embedding of Python `text.split()` with no separator argument: split on
runs of whitespace, discarding empty words. -/
def splitWs (s : List Char) : List (List Char) := splitWsAux s []

/-- Embedding of Python `' '.join(words)`. -/
def joinSp : List (List Char) → List Char
  | [] => []
  | [w] => w
  | w :: x :: ws => w ++ ' ' :: joinSp (x :: ws)

/-- The literal ASS hard line-break token, backslash followed by `N`
(the Python source writes it as the two-character f-string piece in
src/bot.py line 180). -/
def sepN : List Char := ['\\', 'N']

/-- Number of (non-overlapping) occurrences of the line-break token
`sepN` in a character list. Since its two characters differ, occurrences
cannot overlap and this counts every occurrence. -/
def countSep : List Char → ℕ
  | [] => 0
  | [_] => 0
  | a :: b :: rest => if a = '\\' ∧ b = 'N' then countSep rest + 1 else countSep (b :: rest)

/-- A transcript segment as consumed by `generate_ass_subtitles`: the Python
dict keys `start`, `end` and `text` may each be absent (`seg.get` defaults
apply). The `end` key is called `stop` here because `end` is reserved. -/
structure TranscriptSegment where
  start : Option ℚ
  stop : Option ℚ
  text : Option (List Char)

/-- One emitted `Dialogue:` event of the ASS file, keeping the variable parts:
both formatted timestamps and the display text (src/bot.py line 182). -/
structure Dialogue where
  start_time : ℤ × ℤ × ℤ × ℤ
  stop_time : ℤ × ℤ × ℤ × ℤ
  text : List Char

/-- Embedding of `format_ass_time` (src/bot.py lines 192-198) as the four
numeric components (hours, minutes, seconds, centiseconds). Python's `int()`
truncation coincides with the floor here because each `%` result is
non-negative, and `seconds // 3600` already floors. -/
def format_ass_time (seconds : ℚ) : ℤ × ℤ × ℤ × ℤ :=
  (⌊seconds / 3600⌋,
   ⌊(seconds - 3600 * ((⌊seconds / 3600⌋ : ℤ) : ℚ)) / 60⌋,
   ⌊seconds - 60 * ((⌊seconds / 60⌋ : ℤ) : ℚ)⌋,
   ⌊(seconds - ((⌊seconds⌋ : ℤ) : ℚ)) * 100⌋)

/-- The processed display text of a segment before wrapping:
`seg.get('text', '').strip().upper()` (src/bot.py line 167). -/
def seg_text (seg : TranscriptSegment) : List Char :=
  pyUpper (pyStrip (seg.text.getD []))

/-- The word-wrap step (src/bot.py lines 174-180): if the text has more than 6
words, join the first half and the second half (split at `len(words) // 2`)
with the line-break token; otherwise leave the text unchanged. -/
def wrap_text (text : List Char) : List Char :=
  let words := splitWs text
  if 6 < words.length then
    joinSp (words.take (words.length / 2)) ++ sepN ++ joinSp (words.drop (words.length / 2))
  else text

/-- The cue built from one segment in the loop body of `generate_ass_subtitles`
(src/bot.py lines 164-183): segments whose processed text is empty yield no
dialogue at all, otherwise the times are formatted (`end` defaulting to
`start + 2`) and the text is word-wrapped. -/
def cue_of_segment (seg : TranscriptSegment) : Option Dialogue :=
  if seg_text seg = [] then none
  else
    some { start_time := format_ass_time (seg.start.getD 0),
           stop_time := format_ass_time (seg.stop.getD (seg.start.getD 0 + 2)),
           text := wrap_text (seg_text seg) }

/-- Embedding of `generate_ass_subtitles` (src/bot.py lines 145-190): the
ordered list of emitted dialogue events (the fixed header and the file write
carry no per-segment information and are omitted). -/
def generate_ass_subtitles (segments : List TranscriptSegment) : List Dialogue :=
  segments.filterMap cue_of_segment

/-- Packing a valid scalar value and reading it back is the identity. -/
theorem toNat_ofNat_valid {n : ℕ} (h : n.isValidChar) : (Char.ofNat n).toNat = n := by
  rw [Char.ofNat, dif_pos h]
  rfl

/-- The ASCII upper-case map is idempotent. -/
theorem toUpper_toUpper (c : Char) : c.toUpper.toUpper = c.toUpper := by
  unfold Char.toUpper
  by_cases h : Char.toNat c ≥ 97 ∧ Char.toNat c ≤ 122
  · rw [if_pos h]
    have hval : (Char.toNat c - 32).isValidChar := Or.inl (by omega)
    have ht : (Char.ofNat (Char.toNat c - 32)).toNat = Char.toNat c - 32 :=
      toNat_ofNat_valid hval
    rw [if_neg]
    rw [ht]
    omega
  · rw [if_neg h, if_neg h]

/-- Every character of an upper-cased string is fixed by upper-casing. -/
theorem toUpper_mem_pyUpper {s : List Char} {c : Char} (hc : c ∈ pyUpper s) :
    c.toUpper = c := by
  obtain ⟨a, ha, rfl⟩ := List.mem_map.1 hc
  exact toUpper_toUpper a

/-- A string all of whose characters are fixed by upper-casing is fixed by
`pyUpper`. -/
theorem pyUpper_eq_self_of_fixed {s : List Char} (h : ∀ c ∈ s, c.toUpper = c) :
    pyUpper s = s := by
  unfold pyUpper
  rw [List.map_congr_left h]
  exact List.map_id s

/-- Adding one character in front cannot decrease the break-token count. -/
theorem countSep_cons_le (c : Char) (l : List Char) : countSep l ≤ countSep (c :: l) := by
  match l with
  | [] => simp [countSep]
  | [x] => simp [countSep]
  | y :: z :: rest =>
    by_cases hc : c = '\\' ∧ y = 'N'
    · have hy : ¬(y = '\\' ∧ z = 'N') := by
        intro hyz
        rw [hc.2] at hyz
        exact absurd hyz.1 (by decide)
      simp only [countSep, if_pos hc, if_neg hy]
      omega
    · simp only [countSep, if_neg hc]
      exact Nat.le_refl _

/-- The break-token count of a suffix bounds the count of the whole list. -/
theorem countSep_le_append_left (a b : List Char) : countSep b ≤ countSep (a ++ b) := by
  induction a using countSep.induct with
  | case1 => simp
  | case2 x => simpa using countSep_cons_le x b
  | case3 y z rest hyz ih =>
    show countSep b ≤ countSep (y :: z :: (rest ++ b))
    simp only [countSep, if_pos hyz]
    omega
  | case4 y z rest hyz ih =>
    show countSep b ≤ countSep (y :: z :: (rest ++ b))
    simp only [countSep, if_neg hyz]
    rw [List.cons_append] at ih
    exact ih

/-- The break-token count of a prefix bounds the count of the whole list. -/
theorem countSep_le_append_right (a b : List Char) : countSep a ≤ countSep (a ++ b) := by
  induction a using countSep.induct with
  | case1 => simp [countSep]
  | case2 x => simp [countSep]
  | case3 y z rest hyz ih =>
    show countSep (y :: z :: rest) ≤ countSep (y :: z :: (rest ++ b))
    simp only [countSep, if_pos hyz]
    omega
  | case4 y z rest hyz ih =>
    show countSep (y :: z :: rest) ≤ countSep (y :: z :: (rest ++ b))
    simp only [countSep, if_neg hyz]
    rw [List.cons_append] at ih
    exact ih

/-- Break-token counting distributes over an append whose right part does not
start with `N` (so no occurrence can straddle the boundary). -/
theorem countSep_append (a b : List Char) (hb : b.head? ≠ some 'N') :
    countSep (a ++ b) = countSep a + countSep b := by
  induction a using countSep.induct with
  | case1 => simp [countSep]
  | case2 x =>
    match b, hb with
    | [], _ => simp [countSep]
    | w :: bs, hb =>
      have hw : ¬(x = '\\' ∧ w = 'N') := by
        intro h
        exact hb (by simp [h.2])
      show countSep (x :: w :: bs) = countSep [x] + countSep (w :: bs)
      simp only [countSep, if_neg hw]
      omega
  | case3 y z rest hyz ih =>
    show countSep (y :: z :: (rest ++ b)) = countSep (y :: z :: rest) + countSep b
    simp only [countSep, if_pos hyz, ih]
    omega
  | case4 y z rest hyz ih =>
    show countSep (y :: z :: (rest ++ b)) = countSep (y :: z :: rest) + countSep b
    simp only [countSep, if_neg hyz]
    rw [List.cons_append] at ih
    exact ih

/-- Splicing one explicit break token between two lists adds exactly one to
the break-token count. -/
theorem countSep_append_sep (a b : List Char) :
    countSep (a ++ '\\' :: 'N' :: b) = countSep a + countSep b + 1 := by
  induction a using countSep.induct with
  | case1 =>
    show countSep ('\\' :: 'N' :: b) = countSep [] + countSep b + 1
    simp [countSep]
  | case2 x =>
    have h1 : ¬(x = '\\' ∧ ('\\' : Char) = 'N') := by
      intro h
      exact absurd h.2 (by decide)
    show countSep (x :: '\\' :: 'N' :: b) = countSep [x] + countSep b + 1
    simp only [countSep, if_neg h1]
    simp [countSep]
  | case3 y z rest hyz ih =>
    show countSep (y :: z :: (rest ++ '\\' :: 'N' :: b)) =
      countSep (y :: z :: rest) + countSep b + 1
    simp only [countSep, if_pos hyz, ih]
    omega
  | case4 y z rest hyz ih =>
    show countSep (y :: z :: (rest ++ '\\' :: 'N' :: b)) =
      countSep (y :: z :: rest) + countSep b + 1
    simp only [countSep, if_neg hyz]
    rw [List.cons_append] at ih
    exact ih

/-- A leading character other than a backslash does not change the
break-token count. -/
theorem countSep_cons_of_ne (c : Char) (l : List Char) (hc : c ≠ '\\') :
    countSep (c :: l) = countSep l := by
  match l with
  | [] => simp [countSep]
  | y :: rest =>
    have h1 : ¬(c = '\\' ∧ y = 'N') := by
      intro h
      exact hc h.1
    simp only [countSep, if_neg h1]

/-- Every word produced by `splitWsAux` is a contiguous piece of the pending
accumulator followed by the remaining input. -/
theorem splitWsAux_decomp (s : List Char) :
    ∀ (acc w : List Char), w ∈ splitWsAux s acc →
      ∃ u v, u ++ w ++ v = acc.reverse ++ s := by
  induction s with
  | nil =>
    intro acc w hw
    by_cases hacc : acc = []
    · simp [splitWsAux, hacc] at hw
    · simp only [splitWsAux, if_neg hacc, List.mem_singleton] at hw
      exact ⟨[], [], by simp [hw]⟩
  | cons c rest ih =>
    intro acc w hw
    simp only [splitWsAux] at hw
    by_cases hsp : pyIsSpace c
    · rw [if_pos hsp] at hw
      by_cases hacc : acc = []
      · rw [if_pos hacc] at hw
        obtain ⟨u, v, huv⟩ := ih [] w hw
        exact ⟨c :: u, v, by simp [hacc, huv]⟩
      · rw [if_neg hacc] at hw
        rcases List.mem_cons.1 hw with hw | hw
        · exact ⟨[], c :: rest, by simp [hw]⟩
        · obtain ⟨u, v, huv⟩ := ih [] w hw
          refine ⟨acc.reverse ++ c :: u, v, ?_⟩
          simp at huv
          simp [huv]
    · rw [if_neg hsp] at hw
      obtain ⟨u, v, huv⟩ := ih (c :: acc) w hw
      refine ⟨u, v, ?_⟩
      simpa using huv

/-- Characters of any word of `splitWs s` are characters of `s`. -/
theorem splitWs_mem_subset (s w : List Char) (hw : w ∈ splitWs s) :
    ∀ c ∈ w, c ∈ s := by
  obtain ⟨u, v, huv⟩ := splitWsAux_decomp s [] w hw
  intro c hc
  have hm : c ∈ u ++ w ++ v := by simp [hc]
  rw [huv] at hm
  simpa using hm

/-- A text with no break token has no break token in any of its words. -/
theorem countSep_splitWs_eq_zero (s w : List Char) (hs : countSep s = 0)
    (hw : w ∈ splitWs s) : countSep w = 0 := by
  obtain ⟨u, v, huv⟩ := splitWsAux_decomp s [] w hw
  simp only [List.reverse_nil, List.nil_append] at huv
  have h1 : countSep (w ++ v) ≤ countSep (u ++ (w ++ v)) := countSep_le_append_left u (w ++ v)
  have h2 : countSep w ≤ countSep (w ++ v) := countSep_le_append_right w v
  rw [← List.append_assoc, huv] at h1
  omega

/-- Characters of a space-join are spaces or characters of the words. -/
theorem joinSp_mem (ws : List (List Char)) (c : Char) (hc : c ∈ joinSp ws) :
    c = ' ' ∨ ∃ w ∈ ws, c ∈ w := by
  induction ws using joinSp.induct with
  | case1 => simp [joinSp] at hc
  | case2 w => right; exact ⟨w, by simp, hc⟩
  | case3 w x ws ih =>
    rw [joinSp] at hc
    rcases List.mem_append.1 hc with hc | hc
    · right; exact ⟨w, by simp, hc⟩
    · rcases List.mem_cons.1 hc with hc | hc
      · left; exact hc
      · rcases ih hc with hc | ⟨w2, hw2, hcw2⟩
        · left; exact hc
        · right; exact ⟨w2, by simp [List.mem_cons.1 hw2], hcw2⟩

/-- A space-join of break-token-free words is break-token-free. -/
theorem countSep_joinSp (ws : List (List Char)) (h : ∀ w ∈ ws, countSep w = 0) :
    countSep (joinSp ws) = 0 := by
  induction ws using joinSp.induct with
  | case1 => simp [joinSp, countSep]
  | case2 w => simpa [joinSp] using h w (by simp)
  | case3 w x ws ih =>
    rw [joinSp]
    rw [countSep_append _ _ (by simp)]
    have hwz : countSep w = 0 := h w (by simp)
    have hj : countSep (joinSp (x :: ws)) = 0 := by
      refine ih ?_
      intro w2 hw2
      exact h w2 (List.mem_cons_of_mem _ hw2)
    rw [countSep_cons_of_ne _ _ (by decide), hj, hwz]

/-- Wrapping never empties a non-empty text. -/
theorem wrap_text_ne_nil (t : List Char) (ht : t ≠ []) : wrap_text t ≠ [] := by
  unfold wrap_text
  by_cases h6 : 6 < (splitWs t).length
  · rw [if_pos h6]
    intro h
    have hlen := congrArg List.length h
    simp [sepN] at hlen
  · rw [if_neg h6]
    exact ht

/-- Wrapping preserves the property that every character is fixed by
upper-casing (the break token and the joining spaces are fixed). -/
theorem wrap_text_upper_fixed (t : List Char) (h : ∀ c ∈ t, c.toUpper = c) :
    ∀ c ∈ wrap_text t, c.toUpper = c := by
  intro c hc
  unfold wrap_text at hc
  by_cases h6 : 6 < (splitWs t).length
  · rw [if_pos h6] at hc
    have hword : ∀ w ∈ splitWs t, ∀ x ∈ w, x.toUpper = x := by
      intro w hw x hx
      exact h x (splitWs_mem_subset t w hw x hx)
    rcases List.mem_append.1 hc with hc | hc
    · rcases List.mem_append.1 hc with hc | hc
      · rcases joinSp_mem _ _ hc with hc | ⟨w, hw, hcw⟩
        · rw [hc]; decide
        · exact hword w (List.take_subset _ _ hw) c hcw
      · simp only [sepN, List.mem_cons, List.not_mem_nil, or_false] at hc
        rcases hc with rfl | rfl <;> decide
    · rcases joinSp_mem _ _ hc with hc | ⟨w, hw, hcw⟩
      · rw [hc]; decide
      · exact hword w (List.drop_subset _ _ hw) c hcw
  · rw [if_neg h6] at hc
    exact h c hc

/-- C7: every dialogue emitted by the subtitle generator has non-empty,
fully upper-cased display text, and a source segment whose text is empty
after trimming produces no cue at all. -/
theorem generate_cues_upper_nonempty :
    (∀ (segments : List TranscriptSegment) (d : Dialogue),
        d ∈ generate_ass_subtitles segments → d.text ≠ [] ∧ pyUpper d.text = d.text) ∧
    (∀ seg : TranscriptSegment,
        pyStrip (seg.text.getD []) = [] → cue_of_segment seg = none) := by
  constructor
  · intro segments d hd
    obtain ⟨seg, hseg, hcue⟩ := List.mem_filterMap.1 hd
    unfold cue_of_segment at hcue
    by_cases ht : seg_text seg = []
    · rw [if_pos ht] at hcue
      exact absurd hcue (by simp)
    · rw [if_neg ht] at hcue
      have hd2 := Option.some.inj hcue
      have htext : d.text = wrap_text (seg_text seg) := by
        rw [← hd2]
      have hfix : ∀ c ∈ seg_text seg, c.toUpper = c := by
        intro c hc
        exact toUpper_mem_pyUpper hc
      constructor
      · rw [htext]
        exact wrap_text_ne_nil _ ht
      · rw [htext]
        exact pyUpper_eq_self_of_fixed (wrap_text_upper_fixed _ hfix)
  · intro seg h
    unfold cue_of_segment
    rw [if_pos (by simp [seg_text, h, pyUpper])]

/-- Witness for C7: a segment that is blank after trimming produces no cue. -/
theorem generate_cues_upper_nonempty_witness :
    cue_of_segment ⟨none, none, some ("   ".toList)⟩ = none :=
  generate_cues_upper_nonempty.2 ⟨none, none, some ("   ".toList)⟩ (by decide)

/-- C8: for a segment whose processed text contains no break token, the cue's
display text is the wrapped text; with more than 6 words it is exactly the
first half, one break token, then the second half (split at half the word
count, rounded down) and contains exactly one break token, while with at most
6 words it is the unchanged single-line text with no break token. -/
theorem cue_word_wrap (seg : TranscriptSegment)
    (hne : seg_text seg ≠ [])
    (hsep : countSep (seg_text seg) = 0) :
    (cue_of_segment seg).map Dialogue.text = some (wrap_text (seg_text seg)) ∧
    (6 < (splitWs (seg_text seg)).length →
      wrap_text (seg_text seg) =
        joinSp ((splitWs (seg_text seg)).take ((splitWs (seg_text seg)).length / 2)) ++
          sepN ++
          joinSp ((splitWs (seg_text seg)).drop ((splitWs (seg_text seg)).length / 2)) ∧
      countSep (wrap_text (seg_text seg)) = 1) ∧
    ((splitWs (seg_text seg)).length ≤ 6 →
      wrap_text (seg_text seg) = seg_text seg ∧
      countSep (wrap_text (seg_text seg)) = 0) := by
  refine ⟨by simp [cue_of_segment, hne], ?_, ?_⟩
  · intro h6
    have heq : wrap_text (seg_text seg) =
        joinSp ((splitWs (seg_text seg)).take ((splitWs (seg_text seg)).length / 2)) ++
          sepN ++
          joinSp ((splitWs (seg_text seg)).drop ((splitWs (seg_text seg)).length / 2)) := by
      unfold wrap_text
      rw [if_pos h6]
    refine ⟨heq, ?_⟩
    rw [heq]
    have hz : ∀ w ∈ splitWs (seg_text seg), countSep w = 0 := by
      intro w hw
      exact countSep_splitWs_eq_zero _ w hsep hw
    have h1 : countSep
        (joinSp ((splitWs (seg_text seg)).take ((splitWs (seg_text seg)).length / 2))) = 0 := by
      refine countSep_joinSp _ ?_
      intro w hw
      exact hz w (List.take_subset _ _ hw)
    have h2 : countSep
        (joinSp ((splitWs (seg_text seg)).drop ((splitWs (seg_text seg)).length / 2))) = 0 := by
      refine countSep_joinSp _ ?_
      intro w hw
      exact hz w (List.drop_subset _ _ hw)
    rw [List.append_assoc]
    show countSep (_ ++ ('\\' :: 'N' ::
      joinSp ((splitWs (seg_text seg)).drop ((splitWs (seg_text seg)).length / 2)))) = 1
    rw [countSep_append_sep, h1, h2]
  · intro h6
    have heq : wrap_text (seg_text seg) = seg_text seg := by
      unfold wrap_text
      rw [if_neg (not_lt.2 h6)]
    exact ⟨heq, by rw [heq, hsep]⟩

/-- Witness for C8: an 8-word segment satisfies both hypotheses and its
wrapped cue text contains exactly one break token. -/
theorem cue_word_wrap_witness :
    countSep (wrap_text (seg_text
      ⟨none, none, some ("one two three four five six seven eight".toList)⟩)) = 1 :=
  ((cue_word_wrap ⟨none, none, some ("one two three four five six seven eight".toList)⟩
    (by decide) (by decide)).2.1 (by decide)).2

/-! ## Transcription and per-clip rendering
(src/bot.py lines 134-142 and 201-278) -/

/-- Embedding of `transcribe_audio` (src/bot.py lines 134-142): the whisper
call's outcome is supplied as an oracle argument, `none` modelling any raised
exception; a failure is absorbed locally and yields empty text and an empty
segment list instead of propagating. -/
def transcribe_audio (whisper_result : Option (List Char × List TranscriptSegment)) :
    List Char × List TranscriptSegment :=
  match whisper_result with
  | some r => r
  | none => ([], [])

/-- Temporary artifacts `create_short_with_subtitles` writes into `TEMP_DIR`
for one clip: the extracted audio `audio_n.mp3`, the caption track
`subtitles_n.ass` and the pre-caption encode `temp_n.mp4`. -/
inductive TempArtifact
  | audioFile
  | assFile
  | tempVideo
deriving DecidableEq

/-- Outcome of one `create_short_with_subtitles` call: the returned value
(`some output_path` on success, `none` for the `except` path), the temporary
artifacts still on disk when the call returns, and whether the subtitled
branch was taken. -/
structure RenderOutcome where
  result : Option String
  temp_files : List TempArtifact
  subtitled : Bool

/-- Embedding of `create_short_with_subtitles` (src/bot.py lines 201-278). The
loading, cropping and resizing steps create no temporary files; the extracted
audio is written (line 232), the clip's audio is transcribed, and then: with a
non-empty segment list the caption track and pre-caption encode are written
and the external encoder is invoked (`ffmpeg_ok` is its oracle) — on success
all three temporaries are removed (lines 266-268), on failure the exception
path returns `none` removing nothing; with an empty segment list the clip is
written directly to the output path and only the audio file remains. -/
def create_short_with_subtitles
    (whisper_result : Option (List Char × List TranscriptSegment))
    (ffmpeg_ok : Bool) (output_path : String) : RenderOutcome :=
  match (transcribe_audio whisper_result).2 with
  | _ :: _ =>
    if ffmpeg_ok then
      { result := some output_path, temp_files := [], subtitled := true }
    else
      { result := none,
        temp_files := [.audioFile, .assFile, .tempVideo], subtitled := true }
  | [] =>
    { result := some output_path, temp_files := [.audioFile], subtitled := false }

/-- C5 divergence: on the successful uncaptioned path the extracted audio file
is never removed, and on an encoder failure all three temporaries remain, so
the claim that every intermediate artifact is removed on every path fails on
the code. -/
theorem create_short_leaves_artifacts :
    (create_short_with_subtitles (some ([], [])) true "short.mp4").result =
      some "short.mp4" ∧
    (create_short_with_subtitles (some ([], [])) true "short.mp4").temp_files =
      [.audioFile] ∧
    (create_short_with_subtitles
        (some ("hi".toList, [⟨some 0, some 2, some "hi".toList⟩])) false
        "short.mp4").temp_files = [.audioFile, .assFile, .tempVideo] :=
  ⟨rfl, rfl, rfl⟩

/-- C6: a transcription failure is absorbed into an empty segment list rather
than an exception, and whenever transcription yields no segments the clip is
still rendered and returned successfully without the subtitle overlay. -/
theorem transcription_failure_uncaptioned
    (whisper_result : Option (List Char × List TranscriptSegment)) (b : Bool) (out : String)
    (h : (transcribe_audio whisper_result).2 = []) :
    transcribe_audio none = ([], []) ∧
    (create_short_with_subtitles whisper_result b out).result = some out ∧
    (create_short_with_subtitles whisper_result b out).subtitled = false := by
  refine ⟨rfl, ?_, ?_⟩ <;>
  · unfold create_short_with_subtitles
    rw [h]

/-- Witness for C6: a failed transcription call yields the empty segment list
and the clip is delivered uncaptioned. -/
theorem transcription_failure_uncaptioned_witness :
    transcribe_audio none = ([], []) ∧
    (create_short_with_subtitles none true "clip.mp4").result = some "clip.mp4" ∧
    (create_short_with_subtitles none true "clip.mp4").subtitled = false :=
  transcription_failure_uncaptioned none true "clip.mp4" rfl

/-! ## Proxy rotation (`ProxyManager`, src/bot.py lines 32-56) -/

/-- State of the proxy rotator: the endpoint pool and the round-robin cursor
(src/bot.py lines 33-35). -/
structure ProxyManager where
  proxies : List String
  current_index : ℕ

/-- A freshly constructed manager: `__init__` sets the cursor to 0 and
`load_proxies` fills the pool from the remote list, or leaves it empty on
failure; the fetched pool is supplied here as an argument. -/
def ProxyManager.fresh (ps : List String) : ProxyManager := ⟨ps, 0⟩

/-- Embedding of `ProxyManager.get_next` (src/bot.py lines 51-56): returns
`none` on an empty pool, otherwise the endpoint at the cursor, advancing the
cursor modulo the pool size. List indexing is modelled with the `Option`-valued
`l[i]?` so an out-of-range access is observable as `none` on a non-empty pool. -/
def ProxyManager.get_next (m : ProxyManager) : Option String × ProxyManager :=
  if m.proxies = [] then (none, m)
  else (m.proxies[m.current_index]?,
    { m with current_index := (m.current_index + 1) % m.proxies.length })

/-- The manager's state after a number of `get_next` calls. -/
def ProxyManager.iterate (m : ProxyManager) : ℕ → ProxyManager
  | 0 => m
  | j+1 => ((m.iterate j).get_next).2

/-- The results of a number of consecutive `get_next` calls, in order. -/
def ProxyManager.run_calls (m : ProxyManager) : ℕ → List (Option String)
  | 0 => []
  | j+1 => m.get_next.1 :: (m.get_next.2.run_calls j)

/-- After `j` calls on a fresh manager with a non-empty pool, the pool is
unchanged and the cursor sits at `j` modulo the pool size. -/
theorem fresh_iterate_eq (ps : List String) (h : ps ≠ []) (j : ℕ) :
    (ProxyManager.fresh ps).iterate j = ⟨ps, j % ps.length⟩ := by
  induction j with
  | zero => simp [ProxyManager.iterate, ProxyManager.fresh]
  | succ j ih =>
    have hlen : 0 < ps.length := List.length_pos.2 h
    rw [ProxyManager.iterate, ih]
    simp only [ProxyManager.get_next, h, if_neg]
    simp [Nat.mod_add_mod]

/-- C9: the proxy selector is round-robin with wrap-around: on a fresh manager
with a non-empty pool, the call after `j` earlier calls (the `(j+1)`-th call)
returns the endpoint at index `j` modulo the pool size; in particular a pool of
3 endpoints serves 4 consecutive calls from indices 0, 1, 2, 0. -/
theorem get_next_round_robin :
    (∀ (ps : List String), ps ≠ [] → ∀ j : ℕ,
       (((ProxyManager.fresh ps).iterate j).get_next).1 = ps[j % ps.length]?) ∧
    (∀ a b c : String,
       (ProxyManager.fresh [a, b, c]).run_calls 4 = [some a, some b, some c, some a]) := by
  constructor
  · intro ps h j
    rw [fresh_iterate_eq ps h j]
    simp [ProxyManager.get_next, h]
  · intro a b c
    simp [ProxyManager.run_calls, ProxyManager.get_next, ProxyManager.fresh]

/-- Witness for C9: on the concrete pool `p0, p1, p2` the fourth call returns
`p0` again. -/
theorem get_next_round_robin_witness :
    (((ProxyManager.fresh ["p0", "p1", "p2"]).iterate 3).get_next).1 = some "p0" := by
  have h := get_next_round_robin.1 ["p0", "p1", "p2"] (by simp) 3
  simpa using h

/-- C10: `get_next` is total and in-bounds: under the cursor invariant it
returns `none` exactly on an empty pool, any returned endpoint belongs to the
pool, and the cursor invariant is preserved by the call, so the list indexing
inside `get_next` is never out of range. -/
theorem get_next_safe (m : ProxyManager)
    (hinv : m.proxies = [] ∨ m.current_index < m.proxies.length) :
    ((m.get_next).1 = none ↔ m.proxies = []) ∧
    (∀ p, (m.get_next).1 = some p → p ∈ m.proxies) ∧
    ((m.get_next).2.proxies = [] ∨
      (m.get_next).2.current_index < (m.get_next).2.proxies.length) := by
  by_cases he : m.proxies = []
  · simp [ProxyManager.get_next, he]
  · have hidx : m.current_index < m.proxies.length := hinv.resolve_left he
    have hlen : 0 < m.proxies.length := List.length_pos.2 he
    refine ⟨?_, ?_, ?_⟩
    · simp [ProxyManager.get_next, he, List.getElem?_eq_getElem hidx]
    · intro p hp
      simp only [ProxyManager.get_next, he, if_neg, List.getElem?_eq_getElem hidx] at hp
      simp at hp
      subst hp
      exact List.getElem_mem hidx
    · right
      simp [ProxyManager.get_next, he, Nat.mod_lt _ hlen]

/-- Witness for C10: a fresh manager over the one-endpoint pool `px` satisfies
the cursor invariant, and its first call does not return `none`. -/
theorem get_next_safe_witness :
    (((ProxyManager.fresh ["px"]).get_next).1 = none ↔ (["px"] : List String) = []) :=
  (get_next_safe (ProxyManager.fresh ["px"]) (Or.inr (by simp [ProxyManager.fresh]))).1

end Clipcutbot
